import Mathlib

/-!
Shallow embedding of the Parcoom parser combinator library (src/lib.rs)
and proofs of its specification claims.  Rust strings are modelled as
lists of characters, one entry per byte; fallible slicing is modelled
with Option, where none records abnormal termination (a panic, or the
non-termination of the unbounded many loop).
-/

namespace Parcoom

/-- Remaining input text and the absolute position consumed so far
(the ParserInput struct of the source). -/
structure ParserInput where
  text : List Char
  pos : Nat
  deriving DecidableEq

/-- A parse failure: a human readable description and an absolute offset
(the ParserError struct of the source). -/
structure ParserError where
  desc : String
  pos : Nat
  deriving DecidableEq

/-- A parser wraps a transition function from an input state to a new
state plus a result or an error.  The Option layer records abnormal
termination: none models a Rust panic or divergence, some a normal
return. -/
structure Parser (A : Type) where
  run : ParserInput → Option (ParserInput × Except ParserError A)

/-- input_sub of the source: the substring of the remaining text starting
at start with the given length, with pos advanced by start.  The Rust
byte slice s.text[start..start + len] panics when start + len exceeds the
text length; that panic is the none case here. -/
def input_sub (start len : Nat) (s : ParserInput) : Option ParserInput :=
  if start + len ≤ s.text.length then
    some { text := (s.text.drop start).take len, pos := s.pos + start }
  else
    none

/-- fail of the source: always fails with the given error, consuming
nothing. -/
def fail {A : Type} (e : ParserError) : Parser A :=
  ⟨fun input => some (input, Except.error e)⟩

/-- wrap of the source (the succeed constructor of the spec): always
succeeds with x, consuming nothing. -/
def wrap {A : Type} (x : A) : Parser A :=
  ⟨fun input => some (input, Except.ok x)⟩

/-- map of the source: run p, apply f on success, propagate the error and
the state on failure. -/
def map {A B : Type} (f : A → B) (p : Parser A) : Parser B :=
  ⟨fun input =>
    match p.run input with
    | none => none
    | some (input_, Except.ok x) => some (input_, Except.ok (f x))
    | some (input_, Except.error e) => some (input_, Except.error e)⟩

/-- The scanning loop of parse_while: the number of leading characters
satisfying p (the source increments i while i < n and p holds at index
i). -/
def while_count (p : Char → Bool) : List Char → Nat
  | [] => 0
  | c :: cs => if p c then while_count p cs + 1 else 0

/-- parse_while of the source (take_while of the spec): consume the
maximal prefix of characters satisfying p and return it. -/
def parse_while (p : Char → Bool) : Parser (List Char) :=
  ⟨fun input =>
    let n := input.text.length
    let i := while_count p input.text
    match input_sub i (n - i) input with
    | none => none
    | some rest => some (rest, Except.ok (input.text.take i))⟩

/-- bind of the source: run p, feed a success value to f and run the
parser f returns on the advanced state; short circuit on failure. -/
def bind {A B : Type} (f : A → Parser B) (p : Parser A) : Parser B :=
  ⟨fun input =>
    match p.run input with
    | none => none
    | some (input_, Except.ok x) => (f x).run input_
    | some (input_, Except.error e) => some (input_, Except.error e)⟩

/-- The literal parser of the spec.  In the source this function carries
the name of the Lean keyword for prefix notation, so it is renamed here.
It first slices the leading expected.length characters with input_sub
(which panics, none, when the remaining input is shorter), compares them
with the expected characters, and either consumes them or fails with the
state unchanged. -/
def literal (expected : List Char) : Parser (List Char) :=
  ⟨fun input =>
    let unexpected : ParserError := ⟨"expected " ++ String.mk expected, 0⟩
    let expected_size := expected.length
    let input_size := input.text.length
    match input_sub 0 expected_size input with
    | none => none
    | some head =>
      if head.text = expected then
        match input_sub expected_size (input_size - expected_size) input with
        | none => none
        | some rest => some (rest, Except.ok expected)
      else
        some (input, Except.error unexpected)⟩

/-- optional of the source: wrap a success in some, turn a failure into a
success with none, keeping whatever state the inner parser returned. -/
def optional {A : Type} (p : Parser A) : Parser (Option A) :=
  ⟨fun input =>
    match p.run input with
    | none => none
    | some (input_, Except.ok x) => some (input_, Except.ok (some x))
    | some (input_, Except.error _) => some (input_, Except.ok none)⟩

/-- The body of the many_exact for loop, by the number of iterations left:
each iteration runs p, accumulates a success and stops at the first
failure, returning the failing attempt's state and error. -/
def many_exact_loop {A : Type} (p : Parser A) :
    Nat → ParserInput → Option (ParserInput × Except ParserError (List A))
  | 0, input => some (input, Except.ok [])
  | k + 1, input =>
    match p.run input with
    | none => none
    | some (input_, Except.error e) => some (input_, Except.error e)
    | some (input_, Except.ok x) =>
      match many_exact_loop p k input_ with
      | none => none
      | some (input__, Except.ok xs) => some (input__, Except.ok (x :: xs))
      | some (input__, Except.error e) => some (input__, Except.error e)

/-- many_exact of the source (repeat_exact of the spec): run p exactly n
times.  n is the Rust i32 argument; the loop for underscore in 0..n runs
Int.toNat n iterations, zero when n is not positive. -/
def many_exact {A : Type} (n : Int) (p : Parser A) : Parser (List A) :=
  ⟨fun input => many_exact_loop p n.toNat input⟩

/-- The body of the many loop with explicit fuel: run p, accumulate
successes, stop at the first failure keeping the failing attempt's
returned state (the source assigns the new state before matching).
Exhausted fuel is none, the abnormal termination marker. -/
def many_loop {A : Type} (p : Parser A) :
    Nat → ParserInput → Option (ParserInput × Except ParserError (List A))
  | 0, _ => none
  | k + 1, input =>
    match p.run input with
    | none => none
    | some (input_, Except.error _) => some (input_, Except.ok [])
    | some (input_, Except.ok x) =>
      match many_loop p k input_ with
      | none => none
      | some (input__, Except.ok xs) => some (input__, Except.ok (x :: xs))
      | some (input__, Except.error e) => some (input__, Except.error e)

/-- many of the source (called repeat in the spec): run p until the first
failure.  The source loop is unbounded; here it runs with fuel one more
than the remaining length, enough whenever every success consumes at
least one character; when the inner parser succeeds without consuming the
source diverges, which the exhausted fuel models as none. -/
def many {A : Type} (p : Parser A) : Parser (List A) :=
  ⟨fun input => many_loop p (input.text.length + 1) input⟩

/-- The description built by the format literal in any_char, which is
missing its closing parenthesis in the source. -/
def any_char_err_desc (n : Nat) : String :=
  "expected any char, got none (input.len() = " ++ toString n

/-- any_char of the source: consume one character when at least one
remains, else fail with the format literal description and position 0,
consuming nothing. -/
def any_char : Parser Char :=
  ⟨fun input =>
    let n := input.text.length
    match input.text with
    | c :: _ =>
      match input_sub 1 (n - 1) input with
      | none => none
      | some rest => some (rest, Except.ok c)
    | [] => some (input, Except.error ⟨any_char_err_desc n, 0⟩)⟩

/-- The Shl implementation of the source (sequence_keep_left of the
spec): run p1 then p2, keep the left value; cumulative consumption; the
first error propagates with its state. -/
def shl {A B : Type} (p1 : Parser A) (p2 : Parser B) : Parser A :=
  ⟨fun input =>
    match p1.run input with
    | none => none
    | some (input_, Except.ok x) =>
      match p2.run input_ with
      | none => none
      | some (input__, Except.ok _) => some (input__, Except.ok x)
      | some (input__, Except.error e) => some (input__, Except.error e)
    | some (input_, Except.error e) => some (input_, Except.error e)⟩

/-- The Shr implementation of the source (sequence_keep_right of the
spec). -/
def shr {A B : Type} (p1 : Parser A) (p2 : Parser B) : Parser B :=
  ⟨fun input =>
    match p1.run input with
    | none => none
    | some (input_, Except.ok _) =>
      match p2.run input_ with
      | none => none
      | some (input__, Except.ok x) => some (input__, Except.ok x)
      | some (input__, Except.error e) => some (input__, Except.error e)
    | some (input_, Except.error e) => some (input_, Except.error e)⟩

/-- The Add implementation of the source (sequence_pair of the spec). -/
def add {A B : Type} (p1 : Parser A) (p2 : Parser B) : Parser (A × B) :=
  ⟨fun input =>
    match p1.run input with
    | none => none
    | some (input_, Except.ok x) =>
      match p2.run input_ with
      | none => none
      | some (input__, Except.ok y) => some (input__, Except.ok (x, y))
      | some (input__, Except.error e) => some (input__, Except.error e)
    | some (input_, Except.error e) => some (input_, Except.error e)⟩

/-- The BitOr implementation of the source (alternative of the spec): p1
runs on a clone of the state; on its failure p2 runs on the original,
unmodified state; p2's outcome is then returned as is. -/
def bitor {A : Type} (p1 p2 : Parser A) : Parser A :=
  ⟨fun input =>
    match p1.run input with
    | none => none
    | some (input_, Except.ok x) => some (input_, Except.ok x)
    | some (_, Except.error _) => p2.run input⟩

/-- make_input of the source: the initial state, offset 0 and the full
input text. -/
def make_input (s : List Char) : ParserInput := ⟨s, 0⟩

/-- run of the source: build the initial state, run the parser once; on
failure rewrite the error position to the final state's absolute offset;
on success return only the value. -/
def run {A : Type} (p : Parser A) (input : List Char) :
    Option (Except ParserError A) :=
  match p.run (make_input input) with
  | none => none
  | some (_, Except.ok x) => some (Except.ok x)
  | some (st, Except.error e) => some (Except.error ⟨e.desc, st.pos⟩)

/-- The state relation behind the ParserState invariant: the offset does
not decrease, the new text is the suffix of the old text starting at the
new offset, and offset plus remaining length is preserved. -/
def StateOK (s s2 : ParserInput) : Prop :=
  s.pos ≤ s2.pos ∧ s2.text = s.text.drop (s2.pos - s.pos) ∧
    s2.pos + s2.text.length = s.pos + s.text.length

/-- A parser preserves the state invariant when every normal return
relates the input state to the output state by StateOK. -/
def Preserves {A : Type} (p : Parser A) : Prop :=
  ∀ s s2 r, p.run s = some (s2, r) → StateOK s s2

/-- The parsers built from the listed primitives and combinators of the
library. -/
inductive Built : {A : Type} → Parser A → Prop
  | fail_b {A : Type} (e : ParserError) : Built (fail e : Parser A)
  | wrap_b {A : Type} (x : A) : Built (wrap x)
  | literal_b (expected : List Char) : Built (literal expected)
  | parse_while_b (p : Char → Bool) : Built (parse_while p)
  | any_char_b : Built any_char
  | map_b {A B : Type} (f : A → B) {p : Parser A} : Built p → Built (map f p)
  | bind_b {A B : Type} {f : A → Parser B} {p : Parser A} :
      (∀ x, Built (f x)) → Built p → Built (bind f p)
  | optional_b {A : Type} {p : Parser A} : Built p → Built (optional p)
  | many_exact_b {A : Type} (n : Int) {p : Parser A} :
      Built p → Built (many_exact n p)
  | many_b {A : Type} {p : Parser A} : Built p → Built (many p)
  | shl_b {A B : Type} {p1 : Parser A} {p2 : Parser B} :
      Built p1 → Built p2 → Built (shl p1 p2)
  | shr_b {A B : Type} {p1 : Parser A} {p2 : Parser B} :
      Built p1 → Built p2 → Built (shr p1 p2)
  | add_b {A B : Type} {p1 : Parser A} {p2 : Parser B} :
      Built p1 → Built p2 → Built (add p1 p2)
  | bitor_b {A : Type} {p1 p2 : Parser A} :
      Built p1 → Built p2 → Built (bitor p1 p2)

/-- C1: contrary to the claim, the literal parser does not fail cleanly
on an input whose remaining text is shorter than the expected string: the
initial input_sub byte slice is out of bounds, so the source panics,
which the embedding records as the run function returning none instead of
a normal failure result. -/
theorem literal_short_input_panics (e : List Char) (st : ParserInput)
    (h : st.text.length < e.length) :
    (literal e).run st = none := by
  have hn : ¬ e.length ≤ st.text.length := by omega
  simp [literal, input_sub, hn]

/-- Witness for C1 at a concrete input: literal aaa run on the single
character input a panics. -/
theorem literal_short_input_panics_witness :
    (make_input ['a']).text.length < (['a', 'a', 'a'] : List Char).length ∧
      (literal ['a', 'a', 'a']).run (make_input ['a']) = none :=
  ⟨by decide, literal_short_input_panics ['a', 'a', 'a'] (make_input ['a'])
    (by decide)⟩

/-- C2 counterexample: run of any_char on the empty input does not
produce the description with a closing parenthesis that the claim
states, because the format literal in the source lacks it. -/
theorem any_char_empty_desc_counterexample :
    run any_char [] ≠
      some (Except.error ⟨"expected any char, got none (input.len() = 0)", 0⟩) := by
  intro h
  have h2 : run any_char [] =
      some (Except.error ⟨"expected any char, got none (input.len() = 0", 0⟩) := rfl
  rw [h2] at h
  simp only [Option.some.injEq, Except.error.injEq, ParserError.mk.injEq] at h
  exact absurd h.1 (by decide)

/-- C2 amended: any_char on the empty string fails with the description
actually produced by the source format literal, which lacks the closing
parenthesis, at position 0, and consumes nothing, leaving the state
unchanged. -/
theorem any_char_empty_spec :
    run any_char [] =
      some (Except.error ⟨"expected any char, got none (input.len() = 0", 0⟩) ∧
    any_char.run (make_input []) =
      some (make_input [],
        Except.error ⟨"expected any char, got none (input.len() = 0", 0⟩) :=
  ⟨rfl, rfl⟩

/-- C3: alternative returns p1's result when p1 succeeds; when p1 fails
it runs p2 against the original unmodified state, and when p2 also fails
p2's error is returned; concretely, the alternative of literal aaa and
literal 111 succeeds with 111 on the input 111aaa. -/
theorem alternative_backtracks {A : Type} (p1 p2 : Parser A)
    (s s1 s2 : ParserInput) :
    (∀ x, p1.run s = some (s1, Except.ok x) →
      (bitor p1 p2).run s = some (s1, Except.ok x)) ∧
    (∀ e, p1.run s = some (s1, Except.error e) →
      (bitor p1 p2).run s = p2.run s) ∧
    (∀ e e2, p1.run s = some (s1, Except.error e) →
        p2.run s = some (s2, Except.error e2) →
      (bitor p1 p2).run s = some (s2, Except.error e2)) ∧
    run (bitor (literal ['a', 'a', 'a']) (literal ['1', '1', '1']))
        ['1', '1', '1', 'a', 'a', 'a'] = some (Except.ok ['1', '1', '1']) := by
  refine ⟨?_, ?_, ?_, rfl⟩
  · intro x h; simp [bitor, h]
  · intro e h; simp [bitor, h]
  · intro e e2 h h2; simp [bitor, h, h2]

/-- Witness for C3: with literal aaa failing on 111aaa, the alternative
runs literal 111 against the original state. -/
theorem alternative_backtracks_witness :
    (bitor (literal ['a', 'a', 'a']) (literal ['1', '1', '1'])).run
        (make_input ['1', '1', '1', 'a', 'a', 'a']) =
      (literal ['1', '1', '1']).run (make_input ['1', '1', '1', 'a', 'a', 'a']) :=
  (alternative_backtracks (literal ['a', 'a', 'a']) (literal ['1', '1', '1'])
      (make_input ['1', '1', '1', 'a', 'a', 'a'])
      (make_input ['1', '1', '1', 'a', 'a', 'a'])
      (make_input ['1', '1', '1', 'a', 'a', 'a'])).2.1
    ⟨"expected aaa", 0⟩ rfl

/-- C6: run starts from the state with offset 0 and the full input text;
on failure it returns the propagated error description with the final
state's absolute offset as position; on success it returns only the
value, discarding the final state. -/
theorem run_spec {A : Type} (p : Parser A) (s : List Char) :
    ((make_input s).pos = 0 ∧ (make_input s).text = s) ∧
    (∀ st e, p.run (make_input s) = some (st, Except.error e) →
      run p s = some (Except.error ⟨e.desc, st.pos⟩)) ∧
    (∀ st x, p.run (make_input s) = some (st, Except.ok x) →
      run p s = some (Except.ok x)) := by
  refine ⟨⟨rfl, rfl⟩, ?_, ?_⟩
  · intro st e h; simp [run, h]
  · intro st x h; simp [run, h]

/-- Witness for C6 on the always failing parser: the stored position 7 is
replaced by the final state's offset 0. -/
theorem run_spec_witness :
    run (fail ⟨"boom", 7⟩ : Parser Nat) ['a', 'b'] =
      some (Except.error ⟨"boom", 0⟩) :=
  (run_spec (fail ⟨"boom", 7⟩ : Parser Nat) ['a', 'b']).2.1
    (make_input ['a', 'b']) ⟨"boom", 7⟩ rfl

/-- C7: optional of literal x, on a state whose remaining text starts
with y, succeeds with none and returns the state unchanged, so a parser
sequenced after it sees the untouched input; through run it succeeds with
none as well. -/
theorem optional_literal_nonmatch (rest : List Char) (st : ParserInput)
    (h : st.text = 'y' :: rest) :
    (optional (literal ['x'])).run st = some (st, Except.ok none) ∧
    run (optional (literal ['x'])) ('y' :: rest) = some (Except.ok none) := by
  have key : ∀ st2 : ParserInput, st2.text = 'y' :: rest →
      (optional (literal ['x'])).run st2 = some (st2, Except.ok none) := by
    intro st2 h2
    simp [optional, literal, input_sub, h2]
  refine ⟨key st h, ?_⟩
  have h1 := key (make_input ('y' :: rest)) rfl
  simp [run, h1]

/-- Witness for C7 at the concrete input yes. -/
theorem optional_literal_nonmatch_witness :
    (make_input ['y', 'e', 's']).text = 'y' :: ['e', 's'] ∧
    ((optional (literal ['x'])).run (make_input ['y', 'e', 's']) =
        some (make_input ['y', 'e', 's'], Except.ok none) ∧
      run (optional (literal ['x'])) ('y' :: ['e', 's']) =
        some (Except.ok none)) :=
  ⟨rfl, optional_literal_nonmatch ['e', 's'] (make_input ['y', 'e', 's']) rfl⟩

/-- C9: many_exact takes a signed count, and for every count that is not
positive it succeeds with the empty list and the unchanged state, for
every parser p, since the source loop over the range from 0 to n runs no
iteration at all. -/
theorem many_exact_nonpositive {A : Type} (n : Int) (p : Parser A)
    (st : ParserInput) (h : n ≤ 0) :
    (many_exact n p).run st = some (st, Except.ok []) := by
  have h0 : n.toNat = 0 := Int.toNat_of_nonpos h
  simp [many_exact, h0, many_exact_loop]

/-- Witness for C9 at count minus three over any_char. -/
theorem many_exact_nonpositive_witness :
    ((-3 : Int) ≤ 0) ∧
    (many_exact (-3) any_char).run (make_input ['a']) =
      some (make_input ['a'], Except.ok []) :=
  ⟨by decide, many_exact_nonpositive (-3) any_char (make_input ['a']) (by decide)⟩

/-- C10: run of fail e returns an error carrying e's description and
position 0: the position stored in e is discarded by the driver, which
overwrites it with the offset of the final state, here the unchanged
initial state. -/
theorem run_fail_overwrites_pos (A : Type) (e : ParserError) (s : List Char) :
    run (fail e : Parser A) s = some (Except.error ⟨e.desc, 0⟩) := rfl

/-- The scanning loop of parse_while never passes the end of the text. -/
theorem while_count_le (p : Char → Bool) (l : List Char) :
    while_count p l ≤ l.length := by
  induction l with
  | nil => simp [while_count]
  | cons c cs ih =>
    by_cases hc : p c
    · simp [while_count, hc]; omega
    · simp [while_count, hc]

/-- The characters scanned over by parse_while all satisfy p, and the
character the scan stops on, when there is one, does not. -/
theorem while_count_spec (p : Char → Bool) (l : List Char) :
    (∀ c ∈ l.take (while_count p l), p c = true) ∧
    (∀ c cs, l.drop (while_count p l) = c :: cs → p c = false) := by
  induction l with
  | nil => simp [while_count]
  | cons c cs ih =>
    by_cases hc : p c
    · simp only [while_count, hc, if_pos, List.take_succ_cons, List.drop_succ_cons]
      refine ⟨?_, ih.2⟩
      intro d hd
      rcases List.mem_cons.mp hd with h1 | h1
      · rw [h1]; exact hc
      · exact ih.1 d h1
    · simp only [while_count, hc, if_neg, List.take_zero, List.drop_zero]
      refine ⟨by simp, ?_⟩
      intro d ds hds
      injection hds with h1 h2
      subst h1
      simpa using hc

/-- Evaluation of parse_while: it returns the scanned prefix and the
state sliced past it, with the offset advanced by the scanned length. -/
theorem parse_while_run (p : Char → Bool) (st : ParserInput) :
    (parse_while p).run st =
      some (⟨st.text.drop (while_count p st.text),
             st.pos + while_count p st.text⟩,
        Except.ok (st.text.take (while_count p st.text))) := by
  have hle := while_count_le p st.text
  have h1 : while_count p st.text + (st.text.length - while_count p st.text)
      ≤ st.text.length := by omega
  have h2 : (st.text.drop (while_count p st.text)).take
      (st.text.length - while_count p st.text) =
      st.text.drop (while_count p st.text) :=
    List.take_of_length_le (by simp)
  simp [parse_while, input_sub, h1, h2]

/-- C5: parse_while always succeeds, never panicking; its result is the
longest prefix of the remaining text all of whose characters satisfy p
(every returned character satisfies p and the first remaining character,
when there is one, does not), and the returned state is the input state
with exactly that prefix removed and the offset advanced by its
length. -/
theorem parse_while_spec (p : Char → Bool) (st : ParserInput) :
    ∃ r rest,
      (parse_while p).run st =
        some (⟨rest, st.pos + r.length⟩, Except.ok r) ∧
      r ++ rest = st.text ∧
      (∀ c, c ∈ r → p c = true) ∧
      (∀ c cs, rest = c :: cs → p c = false) := by
  refine ⟨st.text.take (while_count p st.text),
    st.text.drop (while_count p st.text), ?_, ?_, ?_, ?_⟩
  · have hlen : (st.text.take (while_count p st.text)).length =
        while_count p st.text := by
      simp [List.length_take]
      exact while_count_le p st.text
    rw [hlen, parse_while_run]
  · exact List.take_append_drop _ _
  · exact fun c hc => (while_count_spec p st.text).1 c hc
  · exact fun c cs h => (while_count_spec p st.text).2 c cs h

/-- Evaluation of any_char on a nonempty remaining text. -/
theorem any_char_run_cons (c : Char) (cs : List Char) (pos : Nat) :
    any_char.run ⟨c :: cs, pos⟩ = some (⟨cs, pos + 1⟩, Except.ok c) := by
  simp [any_char, input_sub, List.take_of_length_le]
  rw [if_pos (by omega)]

/-- Evaluation of any_char on an empty remaining text. -/
theorem any_char_run_nil (pos : Nat) :
    any_char.run ⟨[], pos⟩ =
      some (⟨[], pos⟩, Except.error ⟨any_char_err_desc 0, 0⟩) := rfl

/-- Evaluation of the many_exact loop over any_char: with enough text it
consumes k characters, otherwise it consumes everything and stops with
the any_char failure at the offset advanced by the whole text length. -/
theorem many_exact_loop_any_char (k : Nat) (t : List Char) (pos : Nat) :
    many_exact_loop any_char k ⟨t, pos⟩ =
      if k ≤ t.length then
        some (⟨t.drop k, pos + k⟩, Except.ok (t.take k))
      else
        some (⟨[], pos + t.length⟩, Except.error ⟨any_char_err_desc 0, 0⟩) := by
  induction k generalizing t pos with
  | zero => simp [many_exact_loop]
  | succ k ih =>
    cases t with
    | nil =>
      simp [many_exact_loop, any_char_run_nil]
    | cons c cs =>
      simp only [many_exact_loop, any_char_run_cons, ih]
      by_cases hk : k ≤ cs.length
      · rw [if_pos hk, if_pos (by simp only [List.length_cons]; omega)]
        simp [List.take_succ_cons, List.drop_succ_cons]
        omega
      · rw [if_neg hk, if_neg (by simp only [List.length_cons]; omega)]
        simp
        omega

/-- C4: many_exact of n over any_char, run on a string of length at least
n, succeeds with the list of the first n characters in order; run on a
shorter string it fails and the position reported by the driver equals
the length of the available input; for n equal to 0 it succeeds with the
empty list and leaves any state unchanged. -/
theorem many_exact_any_char_spec (n : Nat) (s : List Char) (st : ParserInput) :
    (n ≤ s.length →
      run (many_exact (n : Int) any_char) s = some (Except.ok (s.take n))) ∧
    (s.length < n →
      run (many_exact (n : Int) any_char) s =
        some (Except.error ⟨any_char_err_desc 0, s.length⟩)) ∧
    (many_exact 0 any_char).run st = some (st, Except.ok []) := by
  have hrun : (many_exact (n : Int) any_char).run (make_input s) =
      many_exact_loop any_char n ⟨s, 0⟩ := by
    simp [many_exact, make_input]
  refine ⟨?_, ?_, ?_⟩
  · intro h
    simp [run, hrun, many_exact_loop_any_char, h]
  · intro h
    have hn : ¬ n ≤ s.length := by omega
    simp [run, hrun, many_exact_loop_any_char, hn]
  · simp [many_exact, many_exact_loop]

/-- Witness for C4 at the repository's own test inputs: three characters
from hel succeed, three characters from he fail at position 2. -/
theorem many_exact_any_char_spec_witness :
    (3 ≤ (['h', 'e', 'l'] : List Char).length ∧
      run (many_exact ((3 : Nat) : Int) any_char) ['h', 'e', 'l'] =
        some (Except.ok ((['h', 'e', 'l'] : List Char).take 3))) ∧
    ((['h', 'e'] : List Char).length < 3 ∧
      run (many_exact ((3 : Nat) : Int) any_char) ['h', 'e'] =
        some (Except.error ⟨any_char_err_desc 0, (['h', 'e'] : List Char).length⟩)) :=
  ⟨⟨by decide,
    (many_exact_any_char_spec 3 ['h', 'e', 'l'] (make_input [])).1 (by decide)⟩,
   ⟨by decide,
    (many_exact_any_char_spec 3 ['h', 'e'] (make_input [])).2.1 (by decide)⟩⟩

/-- StateOK is reflexive: an untouched state satisfies the invariant. -/
theorem stateOK_refl (s : ParserInput) : StateOK s s :=
  ⟨Nat.le_refl _, by simp, rfl⟩

/-- StateOK composes along sequenced parsing steps. -/
theorem stateOK_trans {s1 s2 s3 : ParserInput}
    (h1 : StateOK s1 s2) (h2 : StateOK s2 s3) : StateOK s1 s3 := by
  obtain ⟨a1, b1, c1⟩ := h1
  obtain ⟨a2, b2, c2⟩ := h2
  refine ⟨Nat.le_trans a1 a2, ?_, by omega⟩
  rw [b2, b1, List.drop_drop]
  congr 1
  omega

/-- A normal input_sub slice from offset k to the end of the text yields a
state related to the original by StateOK. -/
theorem input_sub_suffix_stateOK (k : Nat) (st st2 : ParserInput)
    (h : input_sub k (st.text.length - k) st = some st2) :
    StateOK st st2 := by
  rw [input_sub] at h
  split at h
  case isTrue hcond =>
    have hk : k ≤ st.text.length := by omega
    have htake : (st.text.drop k).take (st.text.length - k) = st.text.drop k :=
      List.take_of_length_le (by simp)
    rw [htake] at h
    injection h with h2
    subst h2
    refine ⟨Nat.le_add_right _ _, ?_, ?_⟩
    · simp
    · simp [List.length_drop]
      omega
  case isFalse => exact absurd h (by simp)

/-- fail preserves the state invariant. -/
theorem preserves_fail {A : Type} (e : ParserError) :
    Preserves (fail e : Parser A) := by
  intro s s2 r h
  simp [fail] at h
  obtain ⟨rfl, -⟩ := h
  exact stateOK_refl s

/-- wrap preserves the state invariant. -/
theorem preserves_wrap {A : Type} (x : A) : Preserves (wrap x) := by
  intro s s2 r h
  simp [wrap] at h
  obtain ⟨rfl, -⟩ := h
  exact stateOK_refl s

/-- literal preserves the state invariant on every normal return. -/
theorem preserves_literal (expected : List Char) :
    Preserves (literal expected) := by
  intro s s2 r h
  simp only [literal] at h
  cases hsub : input_sub 0 expected.length s with
  | none => rw [hsub] at h; exact absurd h (by simp)
  | some head =>
    rw [hsub] at h
    dsimp only at h
    by_cases heq : head.text = expected
    · rw [if_pos heq] at h
      cases hsub2 : input_sub expected.length
          (s.text.length - expected.length) s with
      | none => rw [hsub2] at h; exact absurd h (by simp)
      | some rest =>
        rw [hsub2] at h
        simp at h
        obtain ⟨rfl, -⟩ := h
        exact input_sub_suffix_stateOK expected.length s rest hsub2
    · rw [if_neg heq] at h
      simp at h
      obtain ⟨rfl, -⟩ := h
      exact stateOK_refl s

/-- parse_while preserves the state invariant. -/
theorem preserves_parse_while (p : Char → Bool) :
    Preserves (parse_while p) := by
  intro s s2 r h
  simp only [parse_while] at h
  cases hsub : input_sub (while_count p s.text)
      (s.text.length - while_count p s.text) s with
  | none => rw [hsub] at h; exact absurd h (by simp)
  | some rest =>
    rw [hsub] at h
    simp at h
    obtain ⟨rfl, -⟩ := h
    exact input_sub_suffix_stateOK _ s rest hsub

/-- any_char preserves the state invariant. -/
theorem preserves_any_char : Preserves any_char := by
  intro s s2 r h
  simp only [any_char] at h
  cases htext : s.text with
  | nil =>
    rw [htext] at h
    simp at h
    obtain ⟨rfl, -⟩ := h
    exact stateOK_refl s
  | cons c cs =>
    rw [htext] at h
    cases hsub : input_sub 1 (s.text.length - 1) s with
    | none =>
      rw [htext] at hsub
      rw [hsub] at h
      exact absurd h (by simp)
    | some rest =>
      rw [htext] at hsub
      rw [hsub] at h
      simp at h
      obtain ⟨rfl, -⟩ := h
      exact input_sub_suffix_stateOK 1 s rest (htext ▸ hsub)

/-- map preserves the state invariant when its parser does. -/
theorem preserves_map {A B : Type} (f : A → B) {p : Parser A}
    (hp : Preserves p) : Preserves (map f p) := by
  intro s s2 r h
  simp only [map] at h
  cases hr : p.run s with
  | none => rw [hr] at h; exact absurd h (by simp)
  | some pr =>
    obtain ⟨s1, r1⟩ := pr
    rw [hr] at h
    cases r1 with
    | ok x =>
      simp at h
      obtain ⟨rfl, -⟩ := h
      exact hp s s1 _ hr
    | error e =>
      simp at h
      obtain ⟨rfl, -⟩ := h
      exact hp s s1 _ hr

/-- bind preserves the state invariant when the first parser and every
continuation parser do. -/
theorem preserves_bind {A B : Type} {f : A → Parser B} {p : Parser A}
    (hf : ∀ x, Preserves (f x)) (hp : Preserves p) : Preserves (bind f p) := by
  intro s s2 r h
  simp only [bind] at h
  cases hr : p.run s with
  | none => rw [hr] at h; exact absurd h (by simp)
  | some pr =>
    obtain ⟨s1, r1⟩ := pr
    rw [hr] at h
    cases r1 with
    | ok x =>
      dsimp only at h
      exact stateOK_trans (hp s s1 _ hr) (hf x s1 s2 r h)
    | error e =>
      simp at h
      obtain ⟨rfl, -⟩ := h
      exact hp s s1 _ hr

/-- optional preserves the state invariant when its parser does. -/
theorem preserves_optional {A : Type} {p : Parser A}
    (hp : Preserves p) : Preserves (optional p) := by
  intro s s2 r h
  simp only [optional] at h
  cases hr : p.run s with
  | none => rw [hr] at h; exact absurd h (by simp)
  | some pr =>
    obtain ⟨s1, r1⟩ := pr
    rw [hr] at h
    cases r1 with
    | ok x =>
      simp at h
      obtain ⟨rfl, -⟩ := h
      exact hp s s1 _ hr
    | error e =>
      simp at h
      obtain ⟨rfl, -⟩ := h
      exact hp s s1 _ hr

/-- The shared sequencing shape of the Shl, Shr and Add implementations
preserves the state invariant when both parsers do. -/
theorem preserves_seq_step {A B C : Type} (p1 : Parser A) (p2 : Parser B)
    (hp1 : Preserves p1) (hp2 : Preserves p2)
    (combine : A → B → C)
    (s s2 : ParserInput) (r : Except ParserError C)
    (h : (match p1.run s with
      | none => none
      | some (s_, Except.ok x) =>
        match p2.run s_ with
        | none => none
        | some (s__, Except.ok y) => some (s__, Except.ok (combine x y))
        | some (s__, Except.error e) => some (s__, Except.error e)
      | some (s_, Except.error e) => some (s_, Except.error e)) = some (s2, r)) :
    StateOK s s2 := by
  cases hr : p1.run s with
  | none => rw [hr] at h; exact absurd h (by simp)
  | some pr =>
    obtain ⟨s1, r1⟩ := pr
    rw [hr] at h
    cases r1 with
    | ok x =>
      dsimp only at h
      cases hr2 : p2.run s1 with
      | none => rw [hr2] at h; exact absurd h (by simp)
      | some pr2 =>
        obtain ⟨s1b, r2⟩ := pr2
        rw [hr2] at h
        cases r2 with
        | ok y =>
          simp at h
          obtain ⟨rfl, -⟩ := h
          exact stateOK_trans (hp1 s s1 _ hr) (hp2 s1 s1b _ hr2)
        | error e =>
          simp at h
          obtain ⟨rfl, -⟩ := h
          exact stateOK_trans (hp1 s s1 _ hr) (hp2 s1 s1b _ hr2)
    | error e =>
      simp at h
      obtain ⟨rfl, -⟩ := h
      exact hp1 s s1 _ hr

/-- Sequencing keeping the left value preserves the state invariant. -/
theorem preserves_shl {A B : Type} {p1 : Parser A} {p2 : Parser B}
    (hp1 : Preserves p1) (hp2 : Preserves p2) : Preserves (shl p1 p2) := by
  intro s s2 r h
  exact preserves_seq_step p1 p2 hp1 hp2 (fun x _ => x) s s2 r h

/-- Sequencing keeping the right value preserves the state invariant. -/
theorem preserves_shr {A B : Type} {p1 : Parser A} {p2 : Parser B}
    (hp1 : Preserves p1) (hp2 : Preserves p2) : Preserves (shr p1 p2) := by
  intro s s2 r h
  exact preserves_seq_step p1 p2 hp1 hp2 (fun _ y => y) s s2 r h

/-- Sequencing keeping the pair preserves the state invariant. -/
theorem preserves_add {A B : Type} {p1 : Parser A} {p2 : Parser B}
    (hp1 : Preserves p1) (hp2 : Preserves p2) : Preserves (add p1 p2) := by
  intro s s2 r h
  exact preserves_seq_step p1 p2 hp1 hp2 (fun x y => (x, y)) s s2 r h

/-- alternative preserves the state invariant when both sides do. -/
theorem preserves_bitor {A : Type} {p1 p2 : Parser A}
    (hp1 : Preserves p1) (hp2 : Preserves p2) : Preserves (bitor p1 p2) := by
  intro s s2 r h
  simp only [bitor] at h
  cases hr : p1.run s with
  | none => rw [hr] at h; exact absurd h (by simp)
  | some pr =>
    obtain ⟨s1, r1⟩ := pr
    rw [hr] at h
    cases r1 with
    | ok x =>
      simp at h
      obtain ⟨rfl, -⟩ := h
      exact hp1 s s1 _ hr
    | error e =>
      dsimp only at h
      exact hp2 s s2 r h

/-- Each unrolling of the many_exact loop preserves the state
invariant. -/
theorem preserves_many_exact_loop {A : Type} {p : Parser A}
    (hp : Preserves p) (k : Nat) :
    ∀ s s2 r, many_exact_loop p k s = some (s2, r) → StateOK s s2 := by
  induction k with
  | zero =>
    intro s s2 r h
    simp [many_exact_loop] at h
    obtain ⟨rfl, -⟩ := h
    exact stateOK_refl s
  | succ k ih =>
    intro s s2 r h
    simp only [many_exact_loop] at h
    cases hr : p.run s with
    | none => rw [hr] at h; exact absurd h (by simp)
    | some pr =>
      obtain ⟨s1, r1⟩ := pr
      rw [hr] at h
      cases r1 with
      | error e =>
        simp at h
        obtain ⟨rfl, -⟩ := h
        exact hp s s1 _ hr
      | ok x =>
        dsimp only at h
        cases hl : many_exact_loop p k s1 with
        | none => rw [hl] at h; exact absurd h (by simp)
        | some lr =>
          obtain ⟨s1b, r2⟩ := lr
          rw [hl] at h
          cases r2 with
          | ok xs =>
            simp at h
            obtain ⟨rfl, -⟩ := h
            exact stateOK_trans (hp s s1 _ hr) (ih s1 s1b _ hl)
          | error e =>
            simp at h
            obtain ⟨rfl, -⟩ := h
            exact stateOK_trans (hp s s1 _ hr) (ih s1 s1b _ hl)

/-- many_exact preserves the state invariant when its parser does. -/
theorem preserves_many_exact {A : Type} (n : Int) {p : Parser A}
    (hp : Preserves p) : Preserves (many_exact n p) := by
  intro s s2 r h
  exact preserves_many_exact_loop hp n.toNat s s2 r h

/-- Each unrolling of the many loop preserves the state invariant. -/
theorem preserves_many_loop {A : Type} {p : Parser A}
    (hp : Preserves p) (k : Nat) :
    ∀ s s2 r, many_loop p k s = some (s2, r) → StateOK s s2 := by
  induction k with
  | zero =>
    intro s s2 r h
    simp [many_loop] at h
  | succ k ih =>
    intro s s2 r h
    simp only [many_loop] at h
    cases hr : p.run s with
    | none => rw [hr] at h; exact absurd h (by simp)
    | some pr =>
      obtain ⟨s1, r1⟩ := pr
      rw [hr] at h
      cases r1 with
      | error e =>
        simp at h
        obtain ⟨rfl, -⟩ := h
        exact hp s s1 _ hr
      | ok x =>
        dsimp only at h
        cases hl : many_loop p k s1 with
        | none => rw [hl] at h; exact absurd h (by simp)
        | some lr =>
          obtain ⟨s1b, r2⟩ := lr
          rw [hl] at h
          cases r2 with
          | ok xs =>
            simp at h
            obtain ⟨rfl, -⟩ := h
            exact stateOK_trans (hp s s1 _ hr) (ih s1 s1b _ hl)
          | error e =>
            simp at h
            obtain ⟨rfl, -⟩ := h
            exact stateOK_trans (hp s s1 _ hr) (ih s1 s1b _ hl)

/-- many preserves the state invariant when its parser does. -/
theorem preserves_many {A : Type} {p : Parser A}
    (hp : Preserves p) : Preserves (many p) := by
  intro s s2 r h
  exact preserves_many_loop hp (s.text.length + 1) s s2 r h

/-- Every parser built from the listed primitives and combinators
preserves the state invariant, by induction over its construction. -/
theorem built_preserves {A : Type} {p : Parser A} (hb : Built p) :
    Preserves p := by
  induction hb with
  | fail_b e => exact preserves_fail e
  | wrap_b x => exact preserves_wrap x
  | literal_b expected => exact preserves_literal expected
  | parse_while_b q => exact preserves_parse_while q
  | any_char_b => exact preserves_any_char
  | map_b f _ ih => exact preserves_map f ih
  | bind_b _ _ ihf ihp => exact preserves_bind ihf ihp
  | optional_b _ ih => exact preserves_optional ih
  | many_exact_b n _ ih => exact preserves_many_exact n ih
  | many_b _ ih => exact preserves_many ih
  | shl_b _ _ ih1 ih2 => exact preserves_shl ih1 ih2
  | shr_b _ _ ih1 ih2 => exact preserves_shr ih1 ih2
  | add_b _ _ ih1 ih2 => exact preserves_add ih1 ih2
  | bitor_b _ _ ih1 ih2 => exact preserves_bitor ih1 ih2

/-- C8: every parser built from the listed primitives and combinators
preserves the ParserState invariant on every normal return: the offset
never decreases, the returned text is the suffix of the input text
starting at the consumed length, offset plus remaining length is
preserved, and from a state at offset 0 the returned text is the suffix
of the original input starting at the returned offset, whose sum with
the remaining length is the original total length. -/
theorem parser_state_invariant {A : Type} (p : Parser A) (hb : Built p)
    (s s2 : ParserInput) (r : Except ParserError A)
    (h : p.run s = some (s2, r)) :
    (s.pos ≤ s2.pos ∧ s2.text = s.text.drop (s2.pos - s.pos) ∧
      s2.pos + s2.text.length = s.pos + s.text.length) ∧
    (s.pos = 0 → s2.text = s.text.drop s2.pos ∧
      s2.pos + s2.text.length = s.text.length) := by
  obtain ⟨a, b, c⟩ := built_preserves hb s s2 r h
  refine ⟨⟨a, b, c⟩, ?_⟩
  intro h0
  refine ⟨?_, by omega⟩
  rw [b, h0]
  simp

/-- Witness for C8: any_char on the input ab, which returns the state
with text b and offset 1. -/
theorem parser_state_invariant_witness :
    ((make_input ['a', 'b']).pos ≤ (⟨['b'], 1⟩ : ParserInput).pos ∧
      (⟨['b'], 1⟩ : ParserInput).text =
        (make_input ['a', 'b']).text.drop
          ((⟨['b'], 1⟩ : ParserInput).pos - (make_input ['a', 'b']).pos) ∧
      (⟨['b'], 1⟩ : ParserInput).pos + (⟨['b'], 1⟩ : ParserInput).text.length =
        (make_input ['a', 'b']).pos + (make_input ['a', 'b']).text.length) ∧
    ((make_input ['a', 'b']).pos = 0 →
      (⟨['b'], 1⟩ : ParserInput).text =
        (make_input ['a', 'b']).text.drop (⟨['b'], 1⟩ : ParserInput).pos ∧
      (⟨['b'], 1⟩ : ParserInput).pos + (⟨['b'], 1⟩ : ParserInput).text.length =
        (make_input ['a', 'b']).text.length) :=
  parser_state_invariant any_char Built.any_char_b (make_input ['a', 'b'])
    ⟨['b'], 1⟩ (Except.ok 'a') rfl

end Parcoom
